import Mathlib

/-!
Verification development for the Iff2Bpl repository: an IFF/ILBM ↔ raw Amiga
bitplane converter pair (`Iff2bpl.c`, forward direction, and the unnamed
`bpl2iff` source, reverse direction).

Bytes are modelled as natural numbers in `[0, 255]`; buffers as `List Nat`.
Loops that walk a source buffer are modelled with an explicit fuel argument;
every loop iteration of the C code consumes at least one source byte, so a
fuel equal to the source length is always sufficient, and each top level
entry point passes exactly that fuel.
-/

namespace Iff2Bpl

/-- Fuel-indexed PackBits decoder, translated from `decompress_packbits` in
`Iff2bpl.c` (lines 411-435).  `dstRem` is the remaining room in the
destination buffer (`dst_len - di`).  A control byte `b ≤ 127` (signed
`n ≥ 0`) copies the next `n + 1` source bytes, clamped to the remaining
source and destination; `b = 128` (signed `-128`) is a no-op; any other `b`
(signed `n ∈ [-127,-1]`, so `b = n + 256`) repeats the following byte
`(-n) + 1 = 257 - b` times, clamped to the remaining destination.  The C
function returns the number of bytes produced; here the produced bytes
themselves are returned, so the C return value is the length of this list. -/
def decodeRleF : Nat → List Nat → Nat → List Nat
  | 0, _, _ => []
  | _ + 1, [], _ => []
  | fuel + 1, b :: rest, dstRem =>
    if dstRem = 0 then []
    else if b ≤ 127 then
      let count := min (min (b + 1) rest.length) dstRem
      rest.take count ++ decodeRleF fuel (rest.drop count) (dstRem - count)
    else if b = 128 then decodeRleF fuel rest dstRem
    else
      match rest with
      | [] => []
      | v :: rest2 =>
        let count := min (257 - b) dstRem
        List.replicate count v ++ decodeRleF fuel rest2 (dstRem - count)

/-- `decompress_packbits` from `Iff2bpl.c`: decode `src` into a destination
of capacity `dstLen`, returning the produced bytes. -/
def decompress_packbits (src : List Nat) (dstLen : Nat) : List Nat :=
  decodeRleF src.length src dstLen

/-- Decoder written from the words of the specification: the control byte is
reinterpreted as a signed value `n`; `n ∈ [0,127]` copies the next `n+1`
bytes literally, `n ∈ [-127,-1]` repeats the single following byte
`(-n)+1` times, `n = -128` consumes only the control byte, and decoding
stops as soon as `expectedLen` bytes have been produced or the source is
exhausted. -/
def decodeClaimF : Nat → List Nat → Nat → List Nat
  | 0, _, _ => []
  | _ + 1, [], _ => []
  | fuel + 1, b :: rest, dstRem =>
    if dstRem = 0 then []
    else
      let n : Int := if b < 128 then (b : Int) else (b : Int) - 256
      if 0 ≤ n then
        let count := min (min (n + 1).toNat rest.length) dstRem
        rest.take count ++ decodeClaimF fuel (rest.drop count) (dstRem - count)
      else if n = -128 then decodeClaimF fuel rest dstRem
      else
        match rest with
        | [] => []
        | v :: rest2 =>
          let count := min (-n + 1).toNat dstRem
          List.replicate count v ++ decodeClaimF fuel rest2 (dstRem - count)

/-- The specification-level decoder written from the claim's words. -/
def packbitsDecodeClaim (src : List Nat) (dstLen : Nat) : List Nat :=
  decodeClaimF src.length src dstLen

/-- Number of source bytes consumed (the final value of `si`) by
`decompress_packbits` in `Iff2bpl.c`, following the same control flow as
`decodeRleF`: the literal count is clamped to the remaining source and
destination, the repeat count is clamped to the remaining destination, and
a repeat control byte at the very end of the source consumes only itself. -/
def decodeConsumedF : Nat → List Nat → Nat → Nat
  | 0, _, _ => 0
  | _ + 1, [], _ => 0
  | fuel + 1, b :: rest, dstRem =>
    if dstRem = 0 then 0
    else if b ≤ 127 then
      let count := min (min (b + 1) rest.length) dstRem
      1 + count + decodeConsumedF fuel (rest.drop count) (dstRem - count)
    else if b = 128 then 1 + decodeConsumedF fuel rest dstRem
    else
      match rest with
      | [] => 1
      | _ :: rest2 =>
        let count := min (257 - b) dstRem
        2 + decodeConsumedF fuel rest2 (dstRem - count)

/-- Source bytes consumed by `decompress_packbits src dstLen`. -/
def decompressConsumed (src : List Nat) (dstLen : Nat) : Nat :=
  decodeConsumedF src.length src dstLen

/-- The caller's replay loop from `main` in `Iff2bpl.c` (lines 714-727):
it re-scans the control bytes, adding `n + 1` to both `consumed` and
`produced` for a literal control byte (without clamping to the remaining
source or row), and `1` to `consumed` and `(-n) + 1` to `produced` for a
repeat control byte (without checking that the value byte exists).  The
loop stops once `produced` reaches `rowBytes` or the source position
reaches the end; `prodRem` is `rowBytes - produced`. -/
def replayConsumedF : Nat → List Nat → Nat → Nat
  | 0, _, _ => 0
  | _ + 1, [], _ => 0
  | fuel + 1, b :: rest, prodRem =>
    if prodRem = 0 then 0
    else if b ≤ 127 then
      let count := b + 1
      1 + count + replayConsumedF fuel (rest.drop count) (prodRem - count)
    else if b = 128 then 1 + replayConsumedF fuel rest prodRem
    else
      let count := 257 - b
      2 + replayConsumedF fuel (rest.drop 1) (prodRem - count)

/-- Source bytes by which `main`'s replay loop advances the cursor. -/
def replayConsumed (src : List Nat) (rowBytes : Nat) : Nat :=
  replayConsumedF src.length src rowBytes

/-- A PackBits stream decodes a row of `prodRem` remaining bytes exactly
when no run is clamped: every literal group lies fully inside the source,
every repeat control byte is followed by its value byte, and no group
overshoots the remaining row length. -/
def goodRowF : Nat → List Nat → Nat → Bool
  | 0, _, _ => true
  | _ + 1, [], _ => true
  | fuel + 1, b :: rest, prodRem =>
    if prodRem = 0 then true
    else if b ≤ 127 then
      let count := b + 1
      decide (count ≤ rest.length) && decide (count ≤ prodRem) &&
        goodRowF fuel (rest.drop count) (prodRem - count)
    else if b = 128 then goodRowF fuel rest prodRem
    else
      let count := 257 - b
      (!rest.isEmpty) && decide (count ≤ prodRem) &&
        goodRowF fuel (rest.drop 1) (prodRem - count)

/-- Well-formedness of a PackBits stream for one row of `rowBytes` bytes. -/
def goodRow (src : List Nat) (rowBytes : Nat) : Bool :=
  goodRowF src.length src rowBytes

/-- 8-bit to 4-bit channel scale-down, from the CMAP conversion loop in
`Iff2bpl.c` (lines 652-656): `c * 16 / 256`. -/
def scaleDown (c : Nat) : Nat := c * 16 / 256

/-- 4-bit to 8-bit channel scale-up, from the CMAP writer in the reverse
converter (lines 352-356): the 4-bit nibble is extracted with `&&& 0x0F`
and expanded by multiplying by 17. -/
def scaleUp (n : Nat) : Nat := (n &&& 15) * 17

/-- Number of palette colors in the reverse converter (lines 213-214):
`1 << bplnum`, capped at 256. -/
def num_colors (bplnum : Nat) : Nat := min (1 <<< bplnum) 256

/-- Big-endian palette-word extraction from the trailing palette bytes
(lines 274-277): `custom_palette[i] = (bytes[i*2] << 8) | bytes[i*2+1]`. -/
def paletteWords (numColors : Nat) (bytes : List Nat) : List Nat :=
  (List.range numColors).map fun i =>
    (bytes.getD (i * 2) 0) <<< 8 ||| bytes.getD (i * 2 + 1) 0

/-- Input-size dispatch of the reverse converter's `main` (lines 231-240 and
249-277): if the file length equals the expected pixel-data length plus
`numColors * 2` the trailing bytes become the palette; if it equals the
expected length exactly there is no palette (the default is used
downstream); any other length is a fatal size-mismatch error (`none`,
exit status 1 before any output is written). -/
def readInputWithPalette (bplnum expected : Nat) (file : List Nat) :
    Option (List Nat × Option (List Nat)) :=
  if file.length = expected + num_colors bplnum * 2 then
    some (file.take expected, some (paletteWords (num_colors bplnum) (file.drop expected)))
  else if file.length = expected then
    some (file.take expected, none)
  else
    none

/-- Length of the run of bytes equal to `v` at the head of `l` (the inner
`while` of `packbits_encode` counts `1 + countRun (head) (tail)` and caps
the result at 128). -/
def countRun (v : Nat) : List Nat → Nat
  | [] => 0
  | b :: rest => if b = v then countRun v rest + 1 else 0

/-- Literal-group scan of `packbits_encode`: starting at the head of `l`,
count bytes until `cap` bytes have been taken or a run of three identical
bytes begins (the check `si + 2 < src_len && src[si] == src[si+1] &&
src[si] == src[si+2]`). -/
def litLenF : Nat → List Nat → Nat
  | 0, _ => 0
  | _ + 1, [] => 0
  | cap + 1, a :: rest =>
    match rest with
    | b :: c :: _ => if a = b ∧ a = c then 0 else 1 + litLenF cap rest
    | _ => 1 + litLenF cap rest

/-- Fuel-indexed PackBits encoder, translated from `packbits_encode` in the
reverse converter (lines 80-115): a run of `runLen ≥ 3` identical bytes
(capped at 128) is emitted as the control byte `1 - runLen` (as an unsigned
byte: `257 - runLen`) followed by the value; otherwise a literal group of
`litLen` bytes (capped at 128, stopped early when a run of three identical
bytes begins) is emitted as the control byte `litLen - 1` followed by the
literal bytes. -/
def pbEncodeF : Nat → List Nat → List Nat
  | 0, _ => []
  | _ + 1, [] => []
  | fuel + 1, b :: rest =>
    let run := min (countRun b rest + 1) 128
    if 3 ≤ run then
      (257 - run) :: b :: pbEncodeF fuel ((b :: rest).drop run)
    else
      (litLenF 128 (b :: rest) - 1) ::
        ((b :: rest).take (litLenF 128 (b :: rest)) ++
          pbEncodeF fuel ((b :: rest).drop (litLenF 128 (b :: rest))))

/-- `packbits_encode` from the reverse converter. -/
def packbits_encode (src : List Nat) : List Nat := pbEncodeF src.length src

/-- Fuel-indexed strict PackBits decoder, translated from `packbits_decode`
in the reverse converter (lines 118-139).  Unlike `decompress_packbits`,
this decoder returns an error (`none`, the C function returns 0) when a
literal group would read past the source or when any group would write past
the destination bound. -/
def decodeStrictF : Nat → List Nat → Nat → Option (List Nat)
  | 0, _, _ => some []
  | _ + 1, [], _ => some []
  | fuel + 1, b :: rest, dstRem =>
    if dstRem = 0 then some []
    else if b ≤ 127 then
      if rest.length < b + 1 then none
      else if dstRem < b + 1 then none
      else (decodeStrictF fuel (rest.drop (b + 1)) (dstRem - (b + 1))).map
        (fun tail => rest.take (b + 1) ++ tail)
    else if b = 128 then decodeStrictF fuel rest dstRem
    else
      match rest with
      | [] => none
      | v :: rest2 =>
        if dstRem < 257 - b then none
        else (decodeStrictF fuel rest2 (dstRem - (257 - b))).map
          (fun tail => List.replicate (257 - b) v ++ tail)

/-- `packbits_decode` from the reverse converter: decode `src` into a
destination of capacity `dstLen`; `none` models the C error return 0. -/
def packbits_decode (src : List Nat) (dstLen : Nat) : Option (List Nat) :=
  decodeStrictF src.length src dstLen

/-- Bytes per row per plane: `((width + 15) / 16) * 2`, the word-aligned row
stride used throughout both converters. -/
def row_bytes_of (width : Nat) : Nat := ((width + 15) / 16) * 2

/-- The bit of plane `p` at pixel column `x` of row `y` in an interleaved
plane buffer: byte `x / 8` of that row, bit position `7 - x % 8`
(`convert_to_chunky`, `Iff2bpl.c` lines 465-471). -/
def planeBit (planar : List Nat) (width numPlanes x y p : Nat) : Nat :=
  (planar.getD ((y * numPlanes + p) * row_bytes_of width + x / 8) 0 >>> (7 - x % 8)) &&& 1

/-- Pixel-value accumulation of `convert_to_chunky` (`Iff2bpl.c` lines
461-474): OR together the plane bits shifted by their plane index, guarded
by the source bounds check of the C code. -/
def chunkyPixel (planar : List Nat) (width height numPlanes x y : Nat) : Nat :=
  (List.range numPlanes).foldl (fun pixel plane =>
    if (y * numPlanes + plane) * row_bytes_of width + x / 8 <
        height * numPlanes * row_bytes_of width then
      pixel ||| (planeBit planar width numPlanes x y plane <<< plane)
    else pixel) 0

/-- Bit doubling of `convert_to_chunky` (`Iff2bpl.c` lines 476-484): for
each of the 4 least-significant bits of the pixel value that is set, set the
two consecutive output bits `2b` and `2b + 1`. -/
def doubledValue (v : Nat) : Nat :=
  (List.range 4).foldl (fun acc bit =>
    if v &&& (1 <<< bit) ≠ 0 then acc ||| (3 <<< (bit * 2)) else acc) 0

/-- `convert_to_chunky` from `Iff2bpl.c` (lines 455-490): the loops write
`chunky_data[y * width + x]` for `y` then `x` ascending, so the output
buffer is the row-major list of pixel values (doubled when `double_bits`). -/
def convert_to_chunky (planar : List Nat) (width height numPlanes : Nat)
    (double_bits : Bool) : List Nat :=
  (List.range height).flatMap fun y => (List.range width).map fun x =>
    if double_bits then doubledValue (chunkyPixel planar width height numPlanes x y)
    else chunkyPixel planar width height numPlanes x y

/-- Bytes in one complete plane (`row_bytes * height`, `Iff2bpl.c` line 496). -/
def plane_size_of (width height : Nat) : Nat := row_bytes_of width * height

/-- `convert_to_noninterleaved` from `Iff2bpl.c` (lines 493-508): row `y`
of plane `p` of the interleaved buffer (source offset
`(y * numPlanes + p) * rowBytes`) is copied to plane-major offset
`p * planeSize + y * rowBytes`; the loops (`p` outer, `y` inner) write the
destination contiguously, so the output is the concatenation in that order. -/
def convert_to_noninterleaved (il : List Nat) (width height numPlanes : Nat) : List Nat :=
  (List.range numPlanes).flatMap fun p => (List.range height).flatMap fun y =>
    (il.drop ((y * numPlanes + p) * row_bytes_of width)).take (row_bytes_of width)

/-- Interleaved BODY assembly from the reverse converter (lines 453-460):
for each row `y` and plane `p` (in that loop order) append row `y` of plane
`p` from the plane-major buffer (offset `p * planeSize + y * rowBytes`). -/
def assemble_interleaved_body (planes : List Nat) (width height numPlanes : Nat) : List Nat :=
  (List.range height).flatMap fun y => (List.range numPlanes).flatMap fun p =>
    (planes.drop (p * plane_size_of width height + y * row_bytes_of width)).take
      (row_bytes_of width)

/-- Captured state of the chunk walk in `main` of `Iff2bpl.c` (the
`found_*`, `*_size` and `*_data` locals).  The walk has no error state: the
C loop contains no error path, so this result type has no error
constructor. -/
structure IffChunks where
  foundBmhd : Bool
  bmhdBytes : List Nat
  foundCmap : Bool
  cmapSize : Nat
  cmapData : List Nat
  foundBody : Bool
  bodySize : Nat
  bodyData : List Nat
deriving DecidableEq

/-- Initial parse state: nothing found. -/
def initChunks : IffChunks :=
  ⟨false, [], false, 0, [], false, 0, []⟩

/-- Big-endian 32-bit value of four bytes (`read_be32`). -/
def be32 (b0 b1 b2 b3 : Nat) : Nat :=
  b0 <<< 24 ||| b1 <<< 16 ||| b2 <<< 8 ||| b3

/-- `read_be32` at byte position `pos` of the file: the big-endian value of
the next four bytes, or 0 when fewer than four bytes remain (the C helper
returns 0 on a short `fread`). -/
def be32At (file : List Nat) (pos : Nat) : Nat :=
  match (file.drop pos).take 4 with
  | [b0, b1, b2, b3] => be32 b0 b1 b2 b3
  | _ => 0

/-- Even-rounded chunk size, `(chunk_size + 1) & ~1` in 32-bit arithmetic. -/
def evenSize (declared : Nat) : Nat := (declared + declared % 2) % 4294967296

/-- The chunk-walk loop of `main` in `Iff2bpl.c` (lines 596-632), one fuel
unit per iteration (the loop advances the position by at least four bytes
per iteration, so a fuel of the file length plus one always suffices).
Reads clamp at end of file (`fread` semantics); seeks may move past the end
(the loop then exits because `ftell(f) < filesize` fails); a backward seek
computed from a declared BMHD size smaller than 20 fails and leaves the
position unchanged when its target would be negative.  Tags: `BMHD` is
`[66,77,72,68]`, `CMAP` is `[67,77,65,80]`, `BODY` is `[66,79,68,89]`;
captured chunk data holds the bytes actually read, which are fewer than the
declared size when the chunk overruns the end of the container. -/
def walkChunksF : Nat → List Nat → Nat → IffChunks → IffChunks
  | 0, _, _, st => st
  | fuel + 1, file, pos, st =>
    if pos < file.length then
      let tag := (file.drop pos).take 4
      if tag.length < 4 then st
      else
        let declared := be32At file (pos + 4)
        let pos1 := if pos + 8 ≤ file.length then pos + 8 else file.length
        let size := evenSize declared
        if tag = [66, 77, 72, 68] then
          let pos2 := min (pos1 + 20) file.length
          let target : Int := (pos2 : Int) + (size : Int) - 20
          let pos3 := if target < 0 then pos2 else target.toNat
          walkChunksF fuel file pos3
            { st with foundBmhd := true, bmhdBytes := (file.drop pos1).take 20 }
        else if tag = [67, 77, 65, 80] then
          let cdata := (file.drop pos1).take size
          walkChunksF fuel file (min (pos1 + size) file.length)
            { st with foundCmap := true, cmapSize := size, cmapData := cdata }
        else if tag = [66, 79, 68, 89] then
          let bdata := (file.drop pos1).take size
          walkChunksF fuel file (min (pos1 + size) file.length)
            { st with foundBody := true, bodySize := size, bodyData := bdata }
        else
          walkChunksF fuel file (pos1 + size) st
    else st

/-- The chunk walk of `main`: skip the 12-byte FORM/ILBM header without any
validation (three `fread`s that clamp at end of file), then walk chunks
while the position is before the end of the file. -/
def parse_chunks (file : List Nat) : IffChunks :=
  walkChunksF (file.length + 1) file (min 12 file.length) initChunks

theorem decodeRleF_eq_decodeClaimF :
    ∀ fuel src dstRem, (∀ x ∈ src, x < 256) →
      decodeRleF fuel src dstRem = decodeClaimF fuel src dstRem := by
  intro fuel
  induction fuel with
  | zero => intro src dstRem _; rfl
  | succ f ih =>
    intro src dstRem hbytes
    match src with
    | [] => rfl
    | b :: rest =>
      have hb256 : b < 256 := hbytes b (List.mem_cons_self b rest)
      have hrest : ∀ x ∈ rest, x < 256 := fun x hx => hbytes x (List.mem_cons_of_mem b hx)
      simp only [decodeRleF, decodeClaimF]
      by_cases hd : dstRem = 0
      · simp [hd]
      · simp only [hd, if_false]
        by_cases hb : b ≤ 127
        · have hb' : b < 128 := by omega
          have h0 : (0 : Int) ≤ if b < 128 then (b : Int) else (b : Int) - 256 := by
            simp [hb']
          rw [if_pos h0, if_pos hb]
          have hc : ((if b < 128 then (b : Int) else (b : Int) - 256) + 1).toNat = b + 1 := by
            simp [hb']
          rw [hc, ih _ _ (fun x hx => hrest x (List.drop_subset _ _ hx))]
        · have hb' : ¬ b < 128 := by omega
          have h0 : ¬ (0 : Int) ≤ if b < 128 then (b : Int) else (b : Int) - 256 := by
            simp only [hb', if_false]
            omega
          rw [if_neg h0, if_neg hb]
          by_cases h128 : b = 128
          · have : (if b < 128 then (b : Int) else (b : Int) - 256) = -128 := by
              simp [hb', h128]
            rw [if_pos this, if_pos h128, ih _ _ hrest]
          · have : ¬ (if b < 128 then (b : Int) else (b : Int) - 256) = -128 := by
              simp only [hb', if_false]
              omega
            rw [if_neg this, if_neg h128]
            match rest with
            | [] => rfl
            | v :: rest2 =>
              have hc : (-(if b < 128 then (b : Int) else (b : Int) - 256) + 1).toNat
                  = 257 - b := by
                simp only [hb', if_false]
                omega
              have hrest2 : ∀ x ∈ rest2, x < 256 :=
                fun x hx => hrest x (List.mem_cons_of_mem v hx)
              simp only [hc, ih _ _ hrest2]

theorem decodeRleF_length_le :
    ∀ fuel src dstRem, (decodeRleF fuel src dstRem).length ≤ dstRem := by
  intro fuel
  induction fuel with
  | zero => intro src dstRem; simp [decodeRleF]
  | succ f ih =>
    intro src dstRem
    match src with
    | [] => simp [decodeRleF]
    | b :: rest =>
      simp only [decodeRleF]
      by_cases hd : dstRem = 0
      · simp [hd]
      · simp only [hd, if_false]
        by_cases hb : b ≤ 127
        · simp only [hb, if_true, List.length_append, List.length_take]
          have := ih (rest.drop (min (min (b + 1) rest.length) dstRem))
            (dstRem - min (min (b + 1) rest.length) dstRem)
          omega
        · simp only [hb, if_false]
          by_cases h128 : b = 128
          · simp only [h128, if_true]
            exact ih rest dstRem
          · simp only [h128, if_false]
            match rest with
            | [] => simp
            | v :: rest2 =>
              simp only [List.length_append, List.length_replicate]
              have := ih rest2 (dstRem - min (257 - b) dstRem)
              omega

/-- C1: `decompress_packbits` interprets each control byte as a signed value
`n`: `n ∈ [0,127]` copies the next `n+1` source bytes literally, `n ∈
[-127,-1]` repeats the single following source byte `(-n)+1` times, and
`n = -128` consumes only the control byte; it stops as soon as `dstLen`
output bytes have been produced or the source is exhausted, and the
(possibly short) output never exceeds `dstLen` bytes. -/
theorem decompress_packbits_matches_claim (src : List Nat) (dstLen : Nat)
    (hbytes : ∀ x ∈ src, x < 256) :
    decompress_packbits src dstLen = packbitsDecodeClaim src dstLen ∧
      (decompress_packbits src dstLen).length ≤ dstLen :=
  ⟨decodeRleF_eq_decodeClaimF src.length src dstLen hbytes,
   decodeRleF_length_le src.length src dstLen⟩

/-- Witness for C1 at a concrete input: a repeat run of three `7`s followed
by a literal group that is clamped by the destination bound of `5`. -/
theorem decompress_packbits_matches_claim_witness :
    (∀ x ∈ [254, 7, 2, 10, 20, 30], x < 256) ∧
      (decompress_packbits [254, 7, 2, 10, 20, 30] 5 =
          packbitsDecodeClaim [254, 7, 2, 10, 20, 30] 5 ∧
        (decompress_packbits [254, 7, 2, 10, 20, 30] 5).length ≤ 5) :=
  ⟨by decide, decompress_packbits_matches_claim [254, 7, 2, 10, 20, 30] 5 (by decide)⟩

/-- C2 counterexample: a literal run of four bytes decoded into a row of two
bytes.  `decompress_packbits` clamps the copy to the row and consumes three
source bytes, while the replay loop advances the cursor by five, so the two
passes disagree on an input whose run overshoots the row length. -/
theorem consumed_replay_disagree :
    decompress_packbits [3, 10, 11, 12, 13] 2 = [10, 11] ∧
      decompressConsumed [3, 10, 11, 12, 13] 2 = 3 ∧
      replayConsumed [3, 10, 11, 12, 13] 2 = 5 ∧
      decompressConsumed [3, 10, 11, 12, 13] 2 ≠ replayConsumed [3, 10, 11, 12, 13] 2 := by
  decide

theorem decodeConsumedF_eq_replayConsumedF :
    ∀ fuel src prodRem, goodRowF fuel src prodRem = true →
      decodeConsumedF fuel src prodRem = replayConsumedF fuel src prodRem := by
  intro fuel
  induction fuel with
  | zero => intro src prodRem _; rfl
  | succ f ih =>
    intro src prodRem hgood
    match src with
    | [] => rfl
    | b :: rest =>
      simp only [goodRowF] at hgood
      simp only [decodeConsumedF, replayConsumedF]
      by_cases hd : prodRem = 0
      · simp [hd]
      · simp only [hd, if_false] at hgood ⊢
        by_cases hb : b ≤ 127
        · simp only [hb, if_true, Bool.and_eq_true, decide_eq_true_eq] at hgood ⊢
          obtain ⟨⟨h1, h2⟩, h3⟩ := hgood
          have hmin : min (min (b + 1) rest.length) prodRem = b + 1 := by omega
          rw [hmin, ih _ _ h3]
        · simp only [hb, if_false] at hgood ⊢
          by_cases h128 : b = 128
          · simp only [h128, if_true] at hgood ⊢
            rw [ih _ _ hgood]
          · simp only [h128, if_false, Bool.and_eq_true, decide_eq_true_eq,
              Bool.not_eq_true'] at hgood ⊢
            obtain ⟨⟨h1, h2⟩, h3⟩ := hgood
            match rest with
            | [] => simp [List.isEmpty] at h1
            | v :: rest2 =>
              have hmin : min (257 - b) prodRem = 257 - b := by omega
              simp only [List.drop_succ_cons, List.drop_zero] at h3 ⊢
              rw [hmin, ih _ _ h3]

/-- C2 (amended): the replay pass and the decode pass agree on the number of
source bytes consumed per row for every stream in which no run is clamped —
every literal group lies fully inside the source, every repeat control byte
is followed by its value byte, and no group overshoots the remaining row
length (`goodRow`).  On truncated streams or streams whose runs overshoot
the row length the two passes can disagree (see the counterexample). -/
theorem consumed_replay_agree_of_goodRow (src : List Nat) (rowBytes : Nat)
    (hgood : goodRow src rowBytes = true) :
    decompressConsumed src rowBytes = replayConsumed src rowBytes :=
  decodeConsumedF_eq_replayConsumedF src.length src rowBytes hgood

/-- Witness for the amended C2: a well-formed two-group stream filling a
four-byte row, on which both passes consume all five source bytes. -/
theorem consumed_replay_agree_of_goodRow_witness :
    goodRow [1, 10, 20, 255, 7] 4 = true ∧
      decompressConsumed [1, 10, 20, 255, 7] 4 = replayConsumed [1, 10, 20, 255, 7] 4 :=
  ⟨by decide, consumed_replay_agree_of_goodRow [1, 10, 20, 255, 7] 4 (by decide)⟩

set_option maxRecDepth 8192 in
/-- C8: `scaleUp (scaleDown c)` maps every 8-bit input in the bucket
`[16k, 16k+15]` to `17k` for each `k < 16`, and the 16 buckets partition
`0..255` exhaustively (every `c < 256` lies in exactly one bucket). -/
theorem scale_roundtrip_buckets :
    (∀ c, c < 256 → ∀ k, k < 16 → 16 * k ≤ c → c ≤ 16 * k + 15 →
        scaleUp (scaleDown c) = 17 * k) ∧
      (∀ c, c < 256 → ∃ k, k < 16 ∧ 16 * k ≤ c ∧ c ≤ 16 * k + 15 ∧
        ∀ j, j < 16 → 16 * j ≤ c → c ≤ 16 * j + 15 → j = k) := by
  constructor
  · decide
  · intro c hc
    exact ⟨c / 16, by omega, by omega, by omega, fun j h1 h2 h3 => by omega⟩

/-- Witness for C8: the input 37 lies in bucket `k = 2` and maps to 34. -/
theorem scale_roundtrip_buckets_witness :
    (37 < 256 ∧ 2 < 16 ∧ 16 * 2 ≤ 37 ∧ 37 ≤ 16 * 2 + 15) ∧
      scaleUp (scaleDown 37) = 17 * 2 :=
  ⟨by decide, scale_roundtrip_buckets.1 37 (by decide) 2 (by decide) (by decide) (by decide)⟩

theorem shiftLeft_eight_or_eq (a b : Nat) (hb : b < 256) :
    a <<< 8 ||| b = 256 * a + b := by
  apply Nat.eq_of_testBit_eq
  intro j
  rw [show 256 * a + b = 2 ^ 8 * a + b by norm_num]
  rw [Nat.testBit_mul_pow_two_add a (show b < 2 ^ 8 by omega) j]
  rw [Nat.testBit_or, Nat.testBit_shiftLeft]
  by_cases hj : j < 8
  · have hlt : ¬ (j ≥ 8) := by omega
    simp [hlt, hj]
  · have hge : j ≥ 8 := by omega
    have hbf : b.testBit j = false := by
      apply Nat.testBit_eq_false_of_lt
      calc b < 256 := hb
        _ = 2 ^ 8 := by norm_num
        _ ≤ 2 ^ j := Nat.pow_le_pow_right (by norm_num) hge
    simp [hge, hj, hbf]

theorem num_colors_pos (bplnum : Nat) : 0 < num_colors bplnum := by
  have : 0 < 1 <<< bplnum := by
    rw [Nat.shiftLeft_eq]
    positivity
  simp only [num_colors]
  omega

/-- C6: reverse-direction trailing-palette detection.  With
`numColors = min (2 ^ numPlanes) 256`: a file of length
`expected + numColors * 2` yields the pixel data plus a palette whose
`i`-th entry is the big-endian 16-bit word made of the two bytes at
offsets `expected + 2i` and `expected + 2i + 1`; a file of length
`expected` yields the pixel data with no palette (the default palette is
used); any other length is rejected (`none`, exit status 1, no output). -/
theorem trailing_palette_detection (bplnum expected : Nat) (file : List Nat)
    (hbytes : ∀ x ∈ file, x < 256) :
    (file.length = expected + num_colors bplnum * 2 →
      ∃ pal, readInputWithPalette bplnum expected file = some (file.take expected, some pal) ∧
        pal.length = num_colors bplnum ∧
        ∀ i, i < num_colors bplnum →
          pal.getD i 0 = 256 * file.getD (expected + i * 2) 0 +
            file.getD (expected + i * 2 + 1) 0) ∧
      (file.length = expected →
        readInputWithPalette bplnum expected file = some (file, none)) ∧
      (file.length ≠ expected + num_colors bplnum * 2 → file.length ≠ expected →
        readInputWithPalette bplnum expected file = none) := by
  refine ⟨?_, ?_, ?_⟩
  · intro hlen
    refine ⟨paletteWords (num_colors bplnum) (file.drop expected), ?_, ?_, ?_⟩
    · simp only [readInputWithPalette, if_pos hlen]
    · simp [paletteWords]
    · intro i hi
      have hdrop : ∀ k, (file.drop expected).getD k 0 = file.getD (expected + k) 0 := by
        intro k
        rw [List.getD_eq_getElem?_getD, List.getD_eq_getElem?_getD, List.getElem?_drop]
      have hb1 : file.getD (expected + i * 2 + 1) 0 < 256 := by
        by_cases hin : expected + i * 2 + 1 < file.length
        · rw [List.getD_eq_getElem (file) 0 hin]
          exact hbytes _ (List.getElem_mem hin)
        · rw [List.getD_eq_default (file) 0 (by omega)]
          omega
      have hlen' : i < (paletteWords (num_colors bplnum) (file.drop expected)).length := by
        simpa [paletteWords] using hi
      rw [List.getD_eq_getElem _ _ hlen']
      simp only [paletteWords, List.getElem_map, List.getElem_range]
      rw [hdrop, hdrop, ← Nat.add_assoc]
      exact shiftLeft_eight_or_eq _ _ hb1
  · intro hlen
    have hpos := num_colors_pos bplnum
    have hne : ¬ file.length = expected + num_colors bplnum * 2 := by omega
    simp only [readInputWithPalette, if_neg hne, if_pos hlen]
    rw [← hlen, List.take_length]
  · intro h1 h2
    simp only [readInputWithPalette, if_neg h1, if_neg h2]

/-- Witness for C6 at a concrete input: one plane (`numColors = 2`), four
data bytes followed by a four-byte palette `[0x01, 0x23, 0x04, 0x56]`,
decoded big-endian to the words `0x0123` and `0x0456`. -/
theorem trailing_palette_detection_witness :
    (∀ x ∈ [9, 8, 7, 6, 1, 35, 4, 86], x < 256) ∧
      ([9, 8, 7, 6, 1, 35, 4, 86] : List Nat).length = 4 + num_colors 1 * 2 ∧
      ∃ pal, readInputWithPalette 1 4 [9, 8, 7, 6, 1, 35, 4, 86] =
          some (([9, 8, 7, 6, 1, 35, 4, 86] : List Nat).take 4, some pal) ∧
        pal.length = num_colors 1 ∧
        ∀ i, i < num_colors 1 →
          pal.getD i 0 = 256 * ([9, 8, 7, 6, 1, 35, 4, 86] : List Nat).getD (4 + i * 2) 0 +
            ([9, 8, 7, 6, 1, 35, 4, 86] : List Nat).getD (4 + i * 2 + 1) 0 :=
  ⟨by decide, by decide,
    (trailing_palette_detection 1 4 [9, 8, 7, 6, 1, 35, 4, 86] (by decide)).1 (by decide)⟩

theorem pbEncodeF_nil (f : Nat) : pbEncodeF f [] = [] := by
  cases f <;> rfl

theorem countRun_le_length (v : Nat) : ∀ l : List Nat, countRun v l ≤ l.length := by
  intro l
  induction l with
  | nil => simp [countRun]
  | cons b rest ih =>
    simp only [countRun, List.length_cons]
    split <;> omega

theorem litLenF_le_cap : ∀ cap l, litLenF cap l ≤ cap := by
  intro cap
  induction cap with
  | zero => intro l; simp [litLenF]
  | succ c ih =>
    intro l
    match l with
    | [] => simp [litLenF]
    | a :: rest =>
      match rest with
      | [] =>
        simp only [litLenF]
        have := ih ([] : List Nat)
        omega
      | [b] =>
        simp only [litLenF]
        have := ih [b]
        omega
      | b :: c' :: t =>
        simp only [litLenF]
        split
        · omega
        · have := ih (b :: c' :: t)
          omega

theorem litLenF_le_length : ∀ cap l, litLenF cap l ≤ l.length := by
  intro cap
  induction cap with
  | zero => intro l; simp [litLenF]
  | succ c ih =>
    intro l
    match l with
    | [] => simp [litLenF]
    | a :: rest =>
      match rest with
      | [] =>
        simp only [litLenF, List.length_cons]
        have := ih ([] : List Nat)
        simp at this
        omega
      | [b] =>
        simp only [litLenF, List.length_cons]
        have := ih [b]
        simp at this
        omega
      | b :: c' :: t =>
        simp only [litLenF, List.length_cons]
        split
        · omega
        · have := ih (b :: c' :: t)
          simp at this
          omega

theorem litLenF_pos (cap : Nat) (b : Nat) (rest : List Nat)
    (h : min (countRun b rest + 1) 128 < 3) : 1 ≤ litLenF (cap + 1) (b :: rest) := by
  have hcr : countRun b rest ≤ 1 := by omega
  match rest with
  | [] => simp [litLenF]
  | [x] => simp [litLenF]
  | x :: y :: t =>
    simp only [litLenF]
    split
    · rename_i hxy
      exfalso
      obtain ⟨hx, hy⟩ := hxy
      subst hx
      subst hy
      simp [countRun] at hcr
    · omega

theorem take_eq_replicate_of_le_countRun (v : Nat) :
    ∀ k l, k ≤ countRun v l → l.take k = List.replicate k v := by
  intro k
  induction k with
  | zero => intro l h; simp
  | succ k' ih =>
    intro l h
    match l with
    | [] => simp [countRun] at h
    | b :: rest =>
      simp only [countRun] at h
      by_cases hb : b = v
      · rw [if_pos hb] at h
        subst hb
        rw [List.take_succ_cons, List.replicate_succ, ih rest (by omega)]
      · rw [if_neg hb] at h
        omega

theorem take_cons_eq_replicate (v : Nat) (l : List Nat) (k : Nat)
    (h : k ≤ countRun v l + 1) : (v :: l).take k = List.replicate k v := by
  match k with
  | 0 => simp
  | k' + 1 =>
    rw [List.take_succ_cons, List.replicate_succ,
      take_eq_replicate_of_le_countRun v k' l (by omega)]

theorem pbEncodeF_congr : ∀ f g src, src.length ≤ f → src.length ≤ g →
    pbEncodeF f src = pbEncodeF g src := by
  intro f
  induction f with
  | zero =>
    intro g src hf _
    have hnil : src = [] := List.eq_nil_of_length_eq_zero (by omega)
    subst hnil
    rw [pbEncodeF_nil, pbEncodeF_nil]
  | succ f' ih =>
    intro g src hf hg
    match src with
    | [] => rw [pbEncodeF_nil, pbEncodeF_nil]
    | b :: rest =>
      match g with
      | 0 => exact absurd hg (by simp)
      | g' + 1 =>
        simp only [List.length_cons] at hf hg
        simp only [pbEncodeF]
        have hrun1 : 1 ≤ min (countRun b rest + 1) 128 := by omega
        split
        · rename_i hrun
          congr 2
          apply ih
          · simp only [List.length_drop, List.length_cons]
            omega
          · simp only [List.length_drop, List.length_cons]
            omega
        · rename_i hrun
          have hll : 1 ≤ litLenF 128 (b :: rest) := litLenF_pos 127 b rest (by omega)
          congr 2
          apply ih
          · simp only [List.length_drop, List.length_cons]
            omega
          · simp only [List.length_drop, List.length_cons]
            omega

theorem decodeStrictF_congr : ∀ f g src dstRem, src.length ≤ f → src.length ≤ g →
    decodeStrictF f src dstRem = decodeStrictF g src dstRem := by
  intro f
  induction f with
  | zero =>
    intro g src dstRem hf _
    have hnil : src = [] := List.eq_nil_of_length_eq_zero (by omega)
    subst hnil
    cases g <;> rfl
  | succ f' ih =>
    intro g src dstRem hf hg
    match src with
    | [] => cases g <;> rfl
    | b :: rest =>
      match g with
      | 0 => exact absurd hg (by simp)
      | g' + 1 =>
        simp only [List.length_cons] at hf hg
        simp only [decodeStrictF]
        by_cases hd : dstRem = 0
        · simp [hd]
        · simp only [hd, if_false]
          by_cases hb : b ≤ 127
          · simp only [hb, if_true]
            by_cases h1 : rest.length < b + 1
            · simp [h1]
            · simp only [h1, if_false]
              by_cases h2 : dstRem < b + 1
              · simp [h2]
              · simp only [h2, if_false]
                rw [ih g' (rest.drop (b + 1)) (dstRem - (b + 1))
                  (by simp only [List.length_drop]; omega)
                  (by simp only [List.length_drop]; omega)]
          · simp only [hb, if_false]
            by_cases h128 : b = 128
            · simp only [h128, if_true]
              rw [ih g' rest dstRem (by omega) (by omega)]
            · simp only [h128, if_false]
              cases rest with
              | nil => rfl
              | cons v rest2 =>
                simp only [List.length_cons] at hf hg
                by_cases h2 : dstRem < 257 - b
                · simp [h2]
                · simp only [h2, if_false]
                  rw [ih g' rest2 (dstRem - (257 - b)) (by omega) (by omega)]

theorem packbits_encode_run_step (v : Nat) (rest : List Nat)
    (h : 3 ≤ min (countRun v rest + 1) 128) :
    packbits_encode (v :: rest) =
      (257 - min (countRun v rest + 1) 128) :: v ::
        packbits_encode ((v :: rest).drop (min (countRun v rest + 1) 128)) := by
  simp only [packbits_encode, List.length_cons, pbEncodeF, if_pos h]
  congr 2
  apply pbEncodeF_congr
  · simp only [List.length_drop, List.length_cons]
    omega
  · simp only [List.length_drop, List.length_cons]
    omega

theorem packbits_encode_lit_step (v : Nat) (rest : List Nat)
    (h : min (countRun v rest + 1) 128 < 3) :
    packbits_encode (v :: rest) =
      (litLenF 128 (v :: rest) - 1) ::
        ((v :: rest).take (litLenF 128 (v :: rest)) ++
          packbits_encode ((v :: rest).drop (litLenF 128 (v :: rest)))) := by
  have hh : ¬ 3 ≤ min (countRun v rest + 1) 128 := by omega
  have hll : 1 ≤ litLenF 128 (v :: rest) := litLenF_pos 127 v rest h
  simp only [packbits_encode, List.length_cons, pbEncodeF, if_neg hh]
  congr 2
  apply pbEncodeF_congr
  · simp only [List.length_drop, List.length_cons]
    omega
  · simp only [List.length_drop, List.length_cons]
    omega

/-- C5: the PackBits encoder emits, for a run of `runLen ≥ 3` identical
bytes (capped at 128), the repeat control byte `1 - runLen` as a signed
byte (that is, the unsigned byte `257 - runLen`) followed by the repeated
value; otherwise a literal group of `litLen` bytes (capped at 128,
terminated early when a run of three identical bytes begins) emitted as the
control byte `litLen - 1` followed by the literal bytes.  In particular
encoding `[5,5,5,5,5,5,9,9,1,2,3]` yields the control byte `-5` (unsigned
251) then value 5, then control byte 4 then the bytes `[9,9,1,2,3]`. -/
theorem packbits_encode_spec (v : Nat) (rest : List Nat) :
    (3 ≤ min (countRun v rest + 1) 128 →
      packbits_encode (v :: rest) =
        (257 - min (countRun v rest + 1) 128) :: v ::
          packbits_encode ((v :: rest).drop (min (countRun v rest + 1) 128))) ∧
      (min (countRun v rest + 1) 128 < 3 →
        packbits_encode (v :: rest) =
          (litLenF 128 (v :: rest) - 1) ::
            ((v :: rest).take (litLenF 128 (v :: rest)) ++
              packbits_encode ((v :: rest).drop (litLenF 128 (v :: rest))))) ∧
      packbits_encode [5, 5, 5, 5, 5, 5, 9, 9, 1, 2, 3] = [251, 5, 4, 9, 9, 1, 2, 3] :=
  ⟨packbits_encode_run_step v rest, packbits_encode_lit_step v rest, by decide⟩

/-- Witness for C5: a run of three `7`s is encoded as the repeat control
byte `254` (signed `-2 = 1 - 3`) followed by the value `7`. -/
theorem packbits_encode_spec_witness :
    (3 ≤ min (countRun 7 [7, 7] + 1) 128) ∧
      packbits_encode [7, 7, 7] =
        (257 - min (countRun 7 [7, 7] + 1) 128) :: 7 ::
          packbits_encode (([7, 7, 7] : List Nat).drop (min (countRun 7 [7, 7] + 1) 128)) :=
  ⟨by decide, (packbits_encode_spec 7 [7, 7]).1 (by decide)⟩

theorem litLenF_nil (cap : Nat) : litLenF cap [] = 0 := by
  cases cap <;> rfl

theorem litLenF_stop : ∀ cap l c tail2, litLenF cap l < cap →
    l.drop (litLenF cap l) = c :: tail2 → 2 ≤ countRun c tail2 := by
  intro cap
  induction cap with
  | zero =>
    intro l c tail2 h _
    omega
  | succ cp ih =>
    intro l c tail2 h hdrop
    match l with
    | [] =>
      rw [litLenF_nil] at hdrop
      simp at hdrop
    | a :: rest =>
      match rest with
      | [] =>
        simp only [litLenF, litLenF_nil] at hdrop
        simp at hdrop
      | [b] =>
        simp only [litLenF] at h hdrop
        rw [show (1 : Nat) + litLenF cp [b] = litLenF cp [b] + 1 by omega,
          List.drop_succ_cons] at hdrop
        exact ih [b] c tail2 (by omega) hdrop
      | b :: c' :: t =>
        simp only [litLenF] at h hdrop
        by_cases hab : a = b ∧ a = c'
        · rw [if_pos hab] at hdrop
          simp only [List.drop_zero] at hdrop
          obtain ⟨hx, hy⟩ := hab
          injection hdrop with hc htail
          subst hc
          subst htail
          subst hx
          subst hy
          simp [countRun]
        · rw [if_neg hab] at h hdrop
          rw [show (1 : Nat) + litLenF cp (b :: c' :: t) = litLenF cp (b :: c' :: t) + 1
            by omega, List.drop_succ_cons] at hdrop
          exact ih (b :: c' :: t) c tail2 (by omega) hdrop

theorem pbEncodeF_length_bound : ∀ f src, src.length ≤ f →
    (pbEncodeF f src).length ≤ src.length + src.length / 128 + 1 := by
  intro f
  induction f with
  | zero =>
    intro src h
    have hnil : src = [] := List.eq_nil_of_length_eq_zero (by omega)
    subst hnil
    simp [pbEncodeF_nil]
  | succ f' ih =>
    intro src h
    match src with
    | [] => simp [pbEncodeF_nil]
    | b :: rest =>
      simp only [List.length_cons] at h
      simp only [pbEncodeF]
      have hcr := countRun_le_length b rest
      split
      · rename_i hrun
        have hrec := ih ((b :: rest).drop (min (countRun b rest + 1) 128))
          (by simp only [List.length_drop, List.length_cons]; omega)
        simp only [List.length_drop, List.length_cons] at hrec ⊢
        omega
      · rename_i hrun
        have hll1 : 1 ≤ litLenF 128 (b :: rest) := litLenF_pos 127 b rest (by omega)
        have hll128 : litLenF 128 (b :: rest) ≤ 128 := litLenF_le_cap 128 (b :: rest)
        have hlllen : litLenF 128 (b :: rest) ≤ rest.length + 1 := by
          have := litLenF_le_length 128 (b :: rest)
          simpa using this
        by_cases hcase : litLenF 128 (b :: rest) = 128
        · have hrec := ih ((b :: rest).drop (litLenF 128 (b :: rest)))
            (by simp only [List.length_drop, List.length_cons]; omega)
          simp only [List.length_drop, List.length_cons, List.length_append,
            List.length_take] at hrec ⊢
          omega
        · rcases hdrop : (b :: rest).drop (litLenF 128 (b :: rest)) with _ | ⟨c, tail2⟩
          · have hge : rest.length + 1 - litLenF 128 (b :: rest) = 0 := by
              have := congrArg List.length hdrop
              simp only [List.length_drop, List.length_cons, List.length_nil] at this
              omega
            rw [pbEncodeF_nil]
            simp only [List.length_cons, List.length_append, List.length_take,
              List.length_nil]
            omega
          · have hstop : 2 ≤ countRun c tail2 :=
              litLenF_stop 128 (b :: rest) c tail2 (by omega) hdrop
            have hm : tail2.length + 1 = rest.length + 1 - litLenF 128 (b :: rest) := by
              have := congrArg List.length hdrop
              simp only [List.length_drop, List.length_cons] at this
              omega
            cases f' with
            | zero =>
              exfalso
              omega
            | succ f'' =>
              simp only [pbEncodeF]
              have hcr2 := countRun_le_length c tail2
              have hrun2 : 3 ≤ min (countRun c tail2 + 1) 128 := by omega
              rw [if_pos hrun2]
              have hfc : ((c :: tail2).drop (min (countRun c tail2 + 1) 128)).length ≤ f'' := by
                simp only [List.length_drop, List.length_cons]
                omega
              rw [pbEncodeF_congr f'' (f'' + 1) _ hfc (by omega)]
              have hrec := ih ((c :: tail2).drop (min (countRun c tail2 + 1) 128))
                (by simp only [List.length_drop, List.length_cons]; omega)
              simp only [List.length_drop, List.length_cons, List.length_append,
                List.length_take] at hrec ⊢
              omega

/-- C10: for every input buffer, the total number of bytes the PackBits
encoder writes into its output is at most `src_len + src_len / 128 + 16`,
the amount `packbits_encode` allocates, so the encoder never writes past
its allocation (the output grows monotonically, so the final length bounds
every intermediate write position). -/
theorem packbits_encode_alloc_bound (src : List Nat) :
    (packbits_encode src).length ≤ src.length + src.length / 128 + 16 := by
  have hb := pbEncodeF_length_bound src.length src (le_refl _)
  simp only [packbits_encode]
  omega

theorem packbits_decode_repeat (run v : Nat) (tail : List Nat) (dstLen : Nat)
    (h3 : 3 ≤ run) (h128 : run ≤ 128) (hd : run ≤ dstLen) :
    packbits_decode ((257 - run) :: v :: tail) dstLen =
      (packbits_decode tail (dstLen - run)).map (fun t => List.replicate run v ++ t) := by
  simp only [packbits_decode, List.length_cons, decodeStrictF]
  rw [if_neg (show ¬ dstLen = 0 by omega)]
  rw [if_neg (show ¬ 257 - run ≤ 127 by omega)]
  rw [if_neg (show ¬ 257 - run = 128 by omega)]
  have h257 : 257 - (257 - run) = run := by omega
  rw [h257]
  rw [if_neg (show ¬ dstLen < run by omega)]
  rw [decodeStrictF_congr (tail.length + 1) tail.length tail (dstLen - run)
    (by omega) (le_refl _)]

theorem packbits_decode_literal (ll : Nat) (lit tail : List Nat) (dstLen : Nat)
    (h1 : 1 ≤ ll) (h128 : ll ≤ 128) (hlen : lit.length = ll) (hd : ll ≤ dstLen) :
    packbits_decode ((ll - 1) :: (lit ++ tail)) dstLen =
      (packbits_decode tail (dstLen - ll)).map (fun t => lit ++ t) := by
  simp only [packbits_decode, List.length_cons, List.length_append, decodeStrictF]
  rw [if_neg (show ¬ dstLen = 0 by omega)]
  rw [if_pos (show ll - 1 ≤ 127 by omega)]
  have hll : ll - 1 + 1 = ll := by omega
  rw [hll]
  rw [if_neg (show ¬ lit.length + tail.length < ll by omega)]
  rw [if_neg (show ¬ dstLen < ll by omega)]
  rw [show (lit ++ tail).take ll = lit by rw [← hlen, List.take_left]]
  rw [show (lit ++ tail).drop ll = tail by rw [← hlen, List.drop_left]]
  rw [decodeStrictF_congr (lit.length + tail.length) tail.length tail (dstLen - ll)
    (by omega) (le_refl _)]

theorem packbits_roundtrip_aux : ∀ n X, X.length ≤ n →
    packbits_decode (packbits_encode X) X.length = some X := by
  intro n
  induction n with
  | zero =>
    intro X h
    have hnil : X = [] := List.eq_nil_of_length_eq_zero (by omega)
    subst hnil
    rfl
  | succ n' ih =>
    intro X h
    match X with
    | [] => rfl
    | v :: rest =>
      simp only [List.length_cons] at h
      have hcr := countRun_le_length v rest
      by_cases hrun : 3 ≤ min (countRun v rest + 1) 128
      · rw [packbits_encode_run_step v rest hrun]
        rw [packbits_decode_repeat _ v _ _ hrun (min_le_right _ _)
          (by simp only [List.length_cons]; omega)]
        have hlen' : (v :: rest).length - min (countRun v rest + 1) 128 =
            ((v :: rest).drop (min (countRun v rest + 1) 128)).length := by
          simp [List.length_drop]
        rw [hlen', ih _ (by simp only [List.length_drop, List.length_cons]; omega)]
        simp only [Option.map_some']
        congr 1
        rw [← take_cons_eq_replicate v rest _ (min_le_left _ _), List.take_append_drop]
      · push_neg at hrun
        have hll1 : 1 ≤ litLenF 128 (v :: rest) := litLenF_pos 127 v rest (by omega)
        have hll128 : litLenF 128 (v :: rest) ≤ 128 := litLenF_le_cap 128 (v :: rest)
        have hlllen : litLenF 128 (v :: rest) ≤ rest.length + 1 := by
          have := litLenF_le_length 128 (v :: rest)
          simpa using this
        rw [packbits_encode_lit_step v rest (by omega)]
        rw [packbits_decode_literal (litLenF 128 (v :: rest)) _ _ _ hll1 hll128
          (by simp only [List.length_take, List.length_cons]; omega)
          (by simp only [List.length_cons]; omega)]
        have hlen' : (v :: rest).length - litLenF 128 (v :: rest) =
            ((v :: rest).drop (litLenF 128 (v :: rest))).length := by
          simp [List.length_drop]
        rw [hlen', ih _ (by simp only [List.length_drop, List.length_cons]; omega)]
        simp only [Option.map_some']
        congr 1
        exact List.take_append_drop _ _

/-- C3: decoding the output of the PackBits encoder with the decoded-length
bound set to the length of the original buffer `X` reproduces `X` exactly,
and the decoder produces exactly `X.length` bytes (never fewer, and without
hitting the decoder's error paths) from any buffer the encoder emitted. -/
theorem packbits_decode_encode_roundtrip (X : List Nat) :
    packbits_decode (packbits_encode X) X.length = some X ∧
      ∀ out, packbits_decode (packbits_encode X) X.length = some out →
        out.length = X.length := by
  have hrt := packbits_roundtrip_aux X.length X (le_refl _)
  refine ⟨hrt, ?_⟩
  intro out hout
  rw [hrt] at hout
  have hx := Option.some.inj hout
  rw [← hx]

/-- Witness for C3 at a concrete input: a buffer with a literal group, a
run of four identical bytes, and a trailing literal. -/
theorem packbits_decode_encode_roundtrip_witness :
    packbits_decode (packbits_encode [1, 2, 2, 2, 2, 9]) 6 = some [1, 2, 2, 2, 2, 9] ∧
      ([1, 2, 2, 2, 2, 9] : List Nat).length = 6 :=
  ⟨(packbits_decode_encode_roundtrip [1, 2, 2, 2, 2, 9]).1,
   (packbits_decode_encode_roundtrip [1, 2, 2, 2, 2, 9]).2 [1, 2, 2, 2, 2, 9]
     (packbits_decode_encode_roundtrip [1, 2, 2, 2, 2, 9]).1⟩

theorem length_flatMap_range_map {α : Type} (g : Nat → Nat → α) (hN w : Nat) :
    ((List.range hN).flatMap fun a => (List.range w).map fun b => g a b).length = hN * w := by
  induction hN with
  | zero => simp
  | succ h' ih =>
    rw [List.range_succ, List.flatMap_append, List.length_append, ih]
    simp [Nat.succ_mul]

theorem getD_flatMap_range_map {α : Type} (d : α) (g : Nat → Nat → α) :
    ∀ hN w y x, y < hN → x < w →
      (((List.range hN).flatMap fun a => (List.range w).map fun b => g a b).getD
        (y * w + x) d) = g y x := by
  intro hN
  induction hN with
  | zero => intro w y x hy _; omega
  | succ h' ih =>
    intro w y x hy hx
    rw [List.range_succ, List.flatMap_append]
    by_cases hy' : y < h'
    · have hlt : y * w + x <
          ((List.range h').flatMap fun a => (List.range w).map fun b => g a b).length := by
        rw [length_flatMap_range_map]
        have h1 : (y + 1) * w = y * w + w := by ring
        have h2 : (y + 1) * w ≤ h' * w := Nat.mul_le_mul hy' (le_refl w)
        omega
      rw [List.getD_append _ _ _ _ hlt]
      exact ih w y x hy' hx
    · have hyh : y = h' := by omega
      rw [hyh]
      have hge : ((List.range h').flatMap fun a => (List.range w).map fun b => g a b).length ≤
          h' * w + x := by
        rw [length_flatMap_range_map]
        omega
      rw [List.getD_append_right _ _ _ _ hge, length_flatMap_range_map]
      have hx' : h' * w + x - h' * w = x := by omega
      rw [hx']
      simp only [List.flatMap_cons, List.flatMap_nil, List.append_nil]
      rw [List.getD_eq_getElem _ _ (by simp only [List.length_map, List.length_range]; omega)]
      simp only [List.getElem_map, List.getElem_range]

theorem chunkyPixel_fold_spec (planar : List Nat) (w hgt np x y : Nat)
    (hguard : ∀ p, p < np → (y * np + p) * row_bytes_of w + x / 8 <
      hgt * np * row_bytes_of w) :
    ∀ m, m ≤ np →
      ((List.range m).foldl (fun pixel plane =>
          if (y * np + plane) * row_bytes_of w + x / 8 < hgt * np * row_bytes_of w then
            pixel ||| (planeBit planar w np x y plane <<< plane)
          else pixel) 0 < 2 ^ m) ∧
      (∀ p, p < m →
        ((List.range m).foldl (fun pixel plane =>
          if (y * np + plane) * row_bytes_of w + x / 8 < hgt * np * row_bytes_of w then
            pixel ||| (planeBit planar w np x y plane <<< plane)
          else pixel) 0).testBit p =
        (planar.getD ((y * np + p) * row_bytes_of w + x / 8) 0).testBit (7 - x % 8)) := by
  intro m
  induction m with
  | zero =>
    intro _
    refine ⟨by simp, ?_⟩
    intro p hp
    omega
  | succ m' ih =>
    intro hm
    obtain ⟨ihb, iht⟩ := ih (by omega)
    rw [List.range_succ, List.foldl_append, List.foldl_cons, List.foldl_nil]
    rw [if_pos (hguard m' (by omega))]
    have hbitle : planeBit planar w np x y m' ≤ 1 := Nat.and_le_right
    have hshift : planeBit planar w np x y m' <<< m' < 2 ^ (m' + 1) := by
      rw [Nat.shiftLeft_eq]
      have h2 : 0 < 2 ^ m' := Nat.two_pow_pos m'
      have h3 : planeBit planar w np x y m' * 2 ^ m' ≤ 1 * 2 ^ m' :=
        Nat.mul_le_mul hbitle (le_refl _)
      rw [Nat.pow_succ]
      omega
    constructor
    · apply Nat.or_lt_two_pow
      · exact lt_of_lt_of_le ihb (Nat.pow_le_pow_right (by norm_num) (by omega))
      · exact hshift
    · intro p hp
      rw [Nat.testBit_or]
      by_cases hpm : p < m'
      · have hsh : (planeBit planar w np x y m' <<< m').testBit p = false := by
          rw [Nat.testBit_shiftLeft]
          simp [show ¬ p ≥ m' by omega]
        rw [hsh, Bool.or_false]
        exact iht p hpm
      · have hpm' : p = m' := by omega
        subst hpm'
        have hAf := Nat.testBit_eq_false_of_lt ihb
        rw [hAf, Bool.false_or, Nat.testBit_shiftLeft]
        simp [planeBit, Nat.testBit_and, Nat.testBit_shiftRight]

theorem doubledValue_spec (v : Nat) :
    doubledValue v < 256 ∧
      ∀ i, i < 8 → (doubledValue v).testBit i = v.testBit (i / 2) := by
  have hcond : ∀ b : Nat, (v &&& (1 <<< b) ≠ 0) ↔ v.testBit b = true := by
    intro b
    rw [Nat.shiftLeft_eq, one_mul, Nat.and_two_pow]
    cases hb : v.testBit b <;> simp [hb]
  suffices H : ∀ m, m ≤ 4 →
      ((List.range m).foldl (fun acc bit =>
        if v &&& (1 <<< bit) ≠ 0 then acc ||| (3 <<< (bit * 2)) else acc) 0 < 2 ^ (2 * m)) ∧
      (∀ i, i < 2 * m →
        ((List.range m).foldl (fun acc bit =>
          if v &&& (1 <<< bit) ≠ 0 then acc ||| (3 <<< (bit * 2)) else acc) 0).testBit i =
        v.testBit (i / 2)) by
    obtain ⟨h1, h2⟩ := H 4 (le_refl _)
    exact ⟨by simpa [doubledValue] using h1, by simpa [doubledValue] using h2⟩
  intro m
  induction m with
  | zero =>
    intro _
    refine ⟨by simp, ?_⟩
    intro i hi
    omega
  | succ m' ih =>
    intro hm
    obtain ⟨ihb, iht⟩ := ih (by omega)
    rw [List.range_succ, List.foldl_append, List.foldl_cons, List.foldl_nil]
    have hpowle : (2 : Nat) ^ (2 * m') ≤ 2 ^ (2 * (m' + 1)) :=
      Nat.pow_le_pow_right (by norm_num) (by omega)
    have hshlt : (3 : Nat) <<< (m' * 2) < 2 ^ (2 * (m' + 1)) := by
      rw [Nat.shiftLeft_eq]
      have heq : 2 * (m' + 1) = m' * 2 + 2 := by ring
      rw [heq, pow_add]
      have h2 : 0 < (2 : Nat) ^ (m' * 2) := Nat.two_pow_pos _
      have h4 : (2 : Nat) ^ 2 = 4 := by norm_num
      rw [h4]
      omega
    constructor
    · by_cases hc : v &&& (1 <<< m') ≠ 0
      · rw [if_pos hc]
        exact Nat.or_lt_two_pow (lt_of_lt_of_le ihb hpowle) hshlt
      · rw [if_neg hc]
        exact lt_of_lt_of_le ihb hpowle
    · intro i hi
      by_cases him : i < 2 * m'
      · by_cases hc : v &&& (1 <<< m') ≠ 0
        · rw [if_pos hc, Nat.testBit_or]
          have hsh : ((3 : Nat) <<< (m' * 2)).testBit i = false := by
            rw [Nat.testBit_shiftLeft]
            simp [show ¬ i ≥ m' * 2 by omega]
          rw [hsh, Bool.or_false]
          exact iht i him
        · rw [if_neg hc]
          exact iht i him
      · have hi2 : i / 2 = m' := by omega
        have hA := Nat.testBit_eq_false_of_lt
          (lt_of_lt_of_le ihb (Nat.pow_le_pow_right (show 0 < 2 by norm_num)
            (show 2 * m' ≤ i by omega)))
        by_cases hc : v &&& (1 <<< m') ≠ 0
        · rw [if_pos hc, Nat.testBit_or, hA, Bool.false_or, Nat.testBit_shiftLeft]
          have hge : i ≥ m' * 2 := by omega
          have h3 : (3 : Nat).testBit (i - m' * 2) = true := by
            have hd : i - m' * 2 = 0 ∨ i - m' * 2 = 1 := by omega
            rcases hd with hd | hd <;> rw [hd] <;> decide
          rw [hi2, h3, (hcond m').mp hc]
          simp [hge]
        · rw [if_neg hc, hA, hi2]
          have hf : v.testBit m' = false := by
            rcases hb : v.testBit m' with _ | _
            · rfl
            · exact absurd ((hcond m').mpr hb) hc
          rw [hf]

/-- C4: for plane counts in 1..8 and every pixel `(x, y)` with `x < width`,
`y < height`, `convert_to_chunky` stores at chunky index `y * width + x`
the pixel value whose bit `p` (for each plane `p < numPlanes`) is the bit
at position `7 - x % 8` of byte `x / 8` of row `y` of plane `p` in the
interleaved buffer, with no bits set at or above position `numPlanes` —
i.e. the OR over planes `p` of `(bit << p)`; and when `doubleBits` is set
the stored value instead replicates each of the 4 least-significant bits
`b` of that pixel value into output bits `2b` and `2b + 1` (output bit `i`
equals pixel bit `i / 2` for `i < 8`, and bits at position 8 and above are
zero, discarding pixel bits above position 3). -/
theorem convert_to_chunky_correct (planar : List Nat) (w hgt np x y : Nat)
    (hnp : 1 ≤ np ∧ np ≤ 8) (hx : x < w) (hy : y < hgt) :
    ((convert_to_chunky planar w hgt np false).getD (y * w + x) 0 =
        chunkyPixel planar w hgt np x y ∧
      chunkyPixel planar w hgt np x y < 2 ^ np ∧
      (∀ p, p < np → (chunkyPixel planar w hgt np x y).testBit p =
        (planar.getD ((y * np + p) * row_bytes_of w + x / 8) 0).testBit (7 - x % 8))) ∧
    ((convert_to_chunky planar w hgt np true).getD (y * w + x) 0 =
        doubledValue (chunkyPixel planar w hgt np x y) ∧
      doubledValue (chunkyPixel planar w hgt np x y) < 256 ∧
      (∀ i, i < 8 → (doubledValue (chunkyPixel planar w hgt np x y)).testBit i =
        (chunkyPixel planar w hgt np x y).testBit (i / 2))) := by
  have hguard : ∀ p, p < np →
      (y * np + p) * row_bytes_of w + x / 8 < hgt * np * row_bytes_of w := by
    intro p hp
    have hxb : x / 8 < row_bytes_of w := by
      simp only [row_bytes_of]
      omega
    have h2 : (y + 1) * np ≤ hgt * np := Nat.mul_le_mul hy (le_refl np)
    have h3 : (y + 1) * np = y * np + np := by ring
    have h1 : y * np + p + 1 ≤ hgt * np := by omega
    have h4 : (y * np + p + 1) * row_bytes_of w ≤ hgt * np * row_bytes_of w :=
      Nat.mul_le_mul h1 (le_refl _)
    have h5 : (y * np + p + 1) * row_bytes_of w =
        (y * np + p) * row_bytes_of w + row_bytes_of w := by ring
    omega
  have hfold := chunkyPixel_fold_spec planar w hgt np x y hguard np (le_refl np)
  have hpix : chunkyPixel planar w hgt np x y < 2 ^ np := hfold.1
  have hbits : ∀ p, p < np → (chunkyPixel planar w hgt np x y).testBit p =
      (planar.getD ((y * np + p) * row_bytes_of w + x / 8) 0).testBit (7 - x % 8) := hfold.2
  have hdv := doubledValue_spec (chunkyPixel planar w hgt np x y)
  refine ⟨⟨?_, hpix, hbits⟩, ⟨?_, hdv.1, hdv.2⟩⟩
  · have hidx := getD_flatMap_range_map 0
      (fun yy xx => if (false : Bool) then doubledValue (chunkyPixel planar w hgt np xx yy)
        else chunkyPixel planar w hgt np xx yy) hgt w y x hy hx
    simpa [convert_to_chunky] using hidx
  · have hidx := getD_flatMap_range_map 0
      (fun yy xx => if (true : Bool) then doubledValue (chunkyPixel planar w hgt np xx yy)
        else chunkyPixel planar w hgt np xx yy) hgt w y x hy hx
    simpa [convert_to_chunky] using hidx

/-- Witness for C4 at a 4-pixel, one-row, two-plane buffer: plane 0 row
`[0xF0, 0x00]`, plane 1 row `[0x0F, 0x00]`; pixel `(0, 0)` gets value 1. -/
theorem convert_to_chunky_correct_witness :
    ((1 ≤ 2 ∧ 2 ≤ 8) ∧ 0 < 4 ∧ 0 < 1) ∧
      (convert_to_chunky [240, 0, 15, 0] 4 1 2 false).getD 0 0 =
        chunkyPixel [240, 0, 15, 0] 4 1 2 0 0 ∧
      chunkyPixel [240, 0, 15, 0] 4 1 2 0 0 = 1 :=
  ⟨⟨⟨by decide, by decide⟩, by decide, by decide⟩,
   (convert_to_chunky_correct [240, 0, 15, 0] 4 1 2 0 0 ⟨by decide, by decide⟩
     (by decide) (by decide)).1.1,
   by decide⟩

theorem flatMap_congr_mem {α β : Type} (l : List α) (f g : α → List β)
    (h : ∀ a ∈ l, f a = g a) : l.flatMap f = l.flatMap g := by
  induction l with
  | nil => rfl
  | cons a l' ih =>
    rw [List.flatMap_cons, List.flatMap_cons, h a (List.mem_cons_self a l'),
      ih (fun b hb => h b (List.mem_cons_of_mem a hb))]

theorem flatten_flatMap {α β : Type} (l : List α) (f : α → List (List β)) :
    (l.flatMap f).flatten = l.flatMap fun a => (f a).flatten := by
  induction l with
  | nil => rfl
  | cons a l' ih =>
    rw [List.flatMap_cons, List.flatten_append, ih, List.flatMap_cons]

theorem flatten_drop_take (rb : Nat) :
    ∀ L : List (List Nat), (∀ l ∈ L, l.length = rb) →
      ∀ i, i < L.length → (L.flatten.drop (i * rb)).take rb = L.getD i [] := by
  intro L
  induction L with
  | nil =>
    intro _ i hi
    simp at hi
  | cons l L' ih =>
    intro hall i hi
    have hl : l.length = rb := hall l (List.mem_cons_self l L')
    match i with
    | 0 =>
      simp only [Nat.zero_mul, List.drop_zero, List.flatten_cons, List.getD_cons_zero]
      rw [← hl, List.take_left]
    | i' + 1 =>
      rw [List.flatten_cons, List.getD_cons_succ]
      have hoff : (i' + 1) * rb = l.length + i' * rb := by rw [hl]; ring
      rw [hoff, ← List.drop_drop, List.drop_left]
      exact ih (fun b hb => hall b (List.mem_cons_of_mem l hb)) i'
        (by simp only [List.length_cons] at hi; omega)

theorem flatMap_range_mul {α : Type} (g : Nat → List α) :
    ∀ hN np, (List.range (hN * np)).flatMap g =
      (List.range hN).flatMap fun y => (List.range np).flatMap fun p => g (y * np + p) := by
  intro hN np
  induction hN with
  | zero => simp
  | succ h' ih =>
    rw [Nat.succ_mul, List.range_add, List.flatMap_append, ih, List.range_succ,
      List.flatMap_append]
    congr 1
    rw [List.flatMap_map]
    simp only [List.flatMap_cons, List.flatMap_nil, List.append_nil]

theorem flatMap_range_chunks (rb : Nat) :
    ∀ m (l : List Nat), l.length = m * rb →
      (List.range m).flatMap (fun k => (l.drop (k * rb)).take rb) = l := by
  intro m
  induction m with
  | zero =>
    intro l h
    simp only [List.range_zero, List.flatMap_nil]
    symm
    exact List.eq_nil_of_length_eq_zero (by simpa using h)
  | succ m' ih =>
    intro l h
    have hexp : (m' + 1) * rb = m' * rb + rb := by ring
    rw [hexp] at h
    rw [List.range_succ_eq_map, List.flatMap_cons, List.flatMap_map]
    simp only [Nat.zero_mul, List.drop_zero]
    have hfun : (fun k => (l.drop (Nat.succ k * rb)).take rb) =
        fun k => ((l.drop rb).drop (k * rb)).take rb := by
      funext k
      have hs : (l.drop rb).drop (k * rb) = l.drop (Nat.succ k * rb) := by
        rw [List.drop_drop]
        congr 1
        rw [Nat.succ_eq_add_one]
        ring
      rw [hs]
    rw [hfun, ih (l.drop rb) (by simp only [List.length_drop]; omega),
      List.take_append_drop]

/-- C9: converting an interleaved plane buffer of size
`height * numPlanes * rowBytes` to non-interleaved (plane-major) layout with
`convert_to_noninterleaved` and then applying the inverse re-blocking (the
row0-plane0, row0-plane1, ... BODY assembly of the reverse converter)
reproduces the original interleaved buffer byte-for-byte. -/
theorem noninterleaved_roundtrip (il : List Nat) (w hgt np : Nat)
    (hlen : il.length = hgt * np * row_bytes_of w) :
    assemble_interleaved_body (convert_to_noninterleaved il w hgt np) w hgt np = il := by
  have hchunklen : ∀ p y, p < np → y < hgt →
      ((il.drop ((y * np + p) * row_bytes_of w)).take (row_bytes_of w)).length =
        row_bytes_of w := by
    intro p y hp hy
    have h2 : (y + 1) * np ≤ hgt * np := Nat.mul_le_mul hy (le_refl np)
    have h3 : (y + 1) * np = y * np + np := by ring
    have h1 : y * np + p + 1 ≤ hgt * np := by omega
    have h4 : (y * np + p + 1) * row_bytes_of w ≤ hgt * np * row_bytes_of w :=
      Nat.mul_le_mul h1 (le_refl _)
    have h5 : (y * np + p + 1) * row_bytes_of w =
        (y * np + p) * row_bytes_of w + row_bytes_of w := by ring
    simp only [List.length_take, List.length_drop]
    omega
  have hconv : convert_to_noninterleaved il w hgt np =
      ((List.range np).flatMap fun p => (List.range hgt).map fun y =>
        (il.drop ((y * np + p) * row_bytes_of w)).take (row_bytes_of w)).flatten := by
    rw [flatten_flatMap]
    rfl
  have hBall : ∀ l ∈ ((List.range np).flatMap fun p => (List.range hgt).map fun y =>
      (il.drop ((y * np + p) * row_bytes_of w)).take (row_bytes_of w)),
      l.length = row_bytes_of w := by
    intro l hl
    simp only [List.mem_flatMap, List.mem_map, List.mem_range] at hl
    obtain ⟨p, hp, y, hy, rfl⟩ := hl
    exact hchunklen p y hp hy
  have hstep : ∀ y p, y < hgt → p < np →
      ((convert_to_noninterleaved il w hgt np).drop
        (p * plane_size_of w hgt + y * row_bytes_of w)).take (row_bytes_of w) =
      (il.drop ((y * np + p) * row_bytes_of w)).take (row_bytes_of w) := by
    intro y p hy hp
    rw [hconv]
    have hoff : p * plane_size_of w hgt + y * row_bytes_of w =
        (p * hgt + y) * row_bytes_of w := by
      simp only [plane_size_of]
      ring
    rw [hoff]
    have hidx : p * hgt + y < np * hgt := by
      have ha : (p + 1) * hgt ≤ np * hgt := Nat.mul_le_mul hp (le_refl hgt)
      have hb : (p + 1) * hgt = p * hgt + hgt := by ring
      omega
    rw [flatten_drop_take (row_bytes_of w) _ hBall (p * hgt + y)
      (by rw [length_flatMap_range_map]; exact hidx)]
    exact getD_flatMap_range_map []
      (fun pp yy => (il.drop ((yy * np + pp) * row_bytes_of w)).take (row_bytes_of w))
      np hgt p y hp hy
  calc assemble_interleaved_body (convert_to_noninterleaved il w hgt np) w hgt np
      = (List.range hgt).flatMap fun y => (List.range np).flatMap fun p =>
          (il.drop ((y * np + p) * row_bytes_of w)).take (row_bytes_of w) := by
        simp only [assemble_interleaved_body]
        apply flatMap_congr_mem
        intro y hy
        apply flatMap_congr_mem
        intro p hp
        exact hstep y p (List.mem_range.mp hy) (List.mem_range.mp hp)
    _ = (List.range (hgt * np)).flatMap fun k =>
          (il.drop (k * row_bytes_of w)).take (row_bytes_of w) :=
        (flatMap_range_mul
          (fun k => (il.drop (k * row_bytes_of w)).take (row_bytes_of w)) hgt np).symm
    _ = il := flatMap_range_chunks (row_bytes_of w) (hgt * np) il hlen

/-- Witness for C9: a one-pixel-wide (`rowBytes = 2`) two-row two-plane
buffer of eight distinct bytes survives the round trip. -/
theorem noninterleaved_roundtrip_witness :
    ([1, 2, 3, 4, 5, 6, 7, 8] : List Nat).length = 2 * 2 * row_bytes_of 1 ∧
      assemble_interleaved_body
        (convert_to_noninterleaved [1, 2, 3, 4, 5, 6, 7, 8] 1 2 2) 1 2 2 =
        [1, 2, 3, 4, 5, 6, 7, 8] :=
  ⟨by decide, noninterleaved_roundtrip [1, 2, 3, 4, 5, 6, 7, 8] 1 2 2 (by decide)⟩

theorem walkChunksF_stop (f : Nat) (file : List Nat) (pos : Nat) (st : IffChunks)
    (h : ¬ pos < file.length) : walkChunksF f file pos st = st := by
  cases f with
  | zero => rfl
  | succ f' =>
    simp only [walkChunksF, if_neg h]

/-- C7 counterexample: a container whose single BODY chunk declares 8
payload bytes while only 2 remain before the end of the container.  The
chunk parser does not fail — its result type has no error state because the
C loop has no error path — and instead captures the two available bytes
(`bodyData = [1, 2]`, shorter than the declared `bodySize = 8`) and
finishes the walk, i.e. it silently continues with short data rather than
aborting with a FormatError as the claim states. -/
theorem chunk_overrun_no_error :
    (parse_chunks
        (List.replicate 12 0 ++ [66, 79, 68, 89] ++ [0, 0, 0, 8] ++ [1, 2])).foundBody =
        true ∧
      (parse_chunks
        (List.replicate 12 0 ++ [66, 79, 68, 89] ++ [0, 0, 0, 8] ++ [1, 2])).bodySize = 8 ∧
      (parse_chunks
        (List.replicate 12 0 ++ [66, 79, 68, 89] ++ [0, 0, 0, 8] ++ [1, 2])).bodyData =
        [1, 2] ∧
      (parse_chunks
          (List.replicate 12 0 ++ [66, 79, 68, 89] ++ [0, 0, 0, 8] ++ [1, 2])).bodyData.length <
        (parse_chunks
          (List.replicate 12 0 ++ [66, 79, 68, 89] ++ [0, 0, 0, 8] ++ [1, 2])).bodySize := by
  decide

/-- C7 (amended): the chunk parser never fails when a chunk's declared
length would read past the end of the container; for any 12-byte header and
any BODY chunk whose even-rounded declared size exceeds the remaining
payload, the walk terminates normally, capturing exactly the bytes that are
present (a short payload) — it silently continues with short data instead
of raising a FormatError. -/
theorem chunk_overrun_reads_short (hdr payload : List Nat) (d0 d1 d2 d3 : Nat)
    (hhdr : hdr.length = 12)
    (hover : payload.length < evenSize (be32 d0 d1 d2 d3)) :
    parse_chunks (hdr ++ [66, 79, 68, 89] ++ [d0, d1, d2, d3] ++ payload) =
      { initChunks with
          foundBody := true
          bodySize := evenSize (be32 d0 d1 d2 d3)
          bodyData := payload } := by
  have hL : (hdr ++ [66, 79, 68, 89] ++ [d0, d1, d2, d3] ++ payload).length =
      20 + payload.length := by
    simp [hhdr]
    omega
  have hdrop12 : (hdr ++ [66, 79, 68, 89] ++ [d0, d1, d2, d3] ++ payload).drop 12 =
      66 :: 79 :: 68 :: 89 :: d0 :: d1 :: d2 :: d3 :: payload := by
    rw [List.append_assoc, List.append_assoc, ← hhdr, List.drop_left]
    rfl
  have hdrop20 : (hdr ++ [66, 79, 68, 89] ++ [d0, d1, d2, d3] ++ payload).drop (12 + 8) =
      payload := by
    rw [← List.drop_drop, hdrop12]
    rfl
  have hbe : be32At (hdr ++ [66, 79, 68, 89] ++ [d0, d1, d2, d3] ++ payload) (12 + 4) =
      be32 d0 d1 d2 d3 := by
    rw [be32At, ← List.drop_drop, hdrop12]
    rfl
  have htag : List.take 4 (66 :: 79 :: 68 :: 89 :: d0 :: d1 :: d2 :: d3 :: payload) =
      [66, 79, 68, 89] := rfl
  have htake : List.take (evenSize (be32 d0 d1 d2 d3)) payload = payload :=
    List.take_of_length_le (by omega)
  have h1 : 12 < 20 + payload.length := by omega
  have h2 : 12 + 8 ≤ 20 + payload.length := by omega
  have hminpos : min (12 + 8 + evenSize (be32 d0 d1 d2 d3)) (20 + payload.length) =
      20 + payload.length := by omega
  have hmin12 : min 12 (20 + payload.length) = 12 := by omega
  have hstop : ∀ st, walkChunksF (20 + payload.length)
      (hdr ++ [66, 79, 68, 89] ++ [d0, d1, d2, d3] ++ payload)
      (20 + payload.length) st = st := by
    intro st
    exact walkChunksF_stop _ _ _ st (by rw [hL]; omega)
  simp only [parse_chunks, hL, hmin12]
  simp only [walkChunksF]
  simp only [hL, hdrop12, htag, hbe]
  rw [if_pos h1]
  rw [if_neg (by decide : ¬ ([66, 79, 68, 89] : List Nat).length < 4)]
  rw [if_pos h2]
  rw [if_neg (by decide : ¬ ([66, 79, 68, 89] : List Nat) = [66, 77, 72, 68])]
  rw [if_neg (by decide : ¬ ([66, 79, 68, 89] : List Nat) = [67, 77, 65, 80])]
  rw [if_pos trivial]
  simp only [hdrop20, htake, hminpos, hstop]

/-- Witness for the amended C7: the overrunning container from the
counterexample, parsed in full by the amended theorem. -/
theorem chunk_overrun_reads_short_witness :
    (List.replicate 12 0 : List Nat).length = 12 ∧
      ([1, 2] : List Nat).length < evenSize (be32 0 0 0 8) ∧
      parse_chunks (List.replicate 12 0 ++ [66, 79, 68, 89] ++ [0, 0, 0, 8] ++ [1, 2]) =
        { initChunks with
            foundBody := true
            bodySize := evenSize (be32 0 0 0 8)
            bodyData := [1, 2] } :=
  ⟨by decide, by decide,
   chunk_overrun_reads_short (List.replicate 12 0) [1, 2] 0 0 0 8 (by decide) (by decide)⟩

end Iff2Bpl

